import Mathlib

/-!
Verification of the update queue (pkg/flow/update_queue.go), of the
Prometheus instance (pkg/prometheus/instance.go) and of the fake rule store of
the end-to-end test (component/mimir/rules/events_test.go).

The update queue is a `sync.Map` used as a set of `*componentNode` keys plus a
buffered channel of capacity one.  The embedding keeps the keys of the map in a
list, the content of the channel in a boolean, and makes the two sources of
nondeterminism of the Go code explicit inputs: the key that `sync.Map.Range`
visits first, and the case that `select` takes when both cases are ready.
-/

namespace flow

/-- Identity of a component node: what a non-nil `*componentNode` points to.
The nil pointer is `none` in results of type `Option componentNode`. -/
abbrev componentNode := Nat

/-- The type `updateQueue`: `updated` holds the keys stored in the `sync.Map`
(all values are `struct{}{}`), `updateCh` tells whether the one slot of the
buffered channel `make(chan struct{}, 1)` is filled. -/
structure updateQueue where
  updated : List componentNode
  updateCh : Bool
  deriving DecidableEq, Repr

/-- The error of a finished context, `ctx.Err()`. -/
inductive ctxError where
  | Canceled
  | DeadlineExceeded
  deriving DecidableEq, Repr

/-- A `context.Context` as far as `Dequeue` looks at it: `Err` is `none` while
the context is live (then `ctx.Done()` is not readable) and the error of the
context once it is done (then `ctx.Done()` is readable). -/
structure Context where
  Err : Option ctxError
  deriving DecidableEq, Repr

/-- A live context, such as `context.Background()`. -/
def Context.background : Context := ⟨none⟩

/-- A context that was canceled before the call. -/
def Context.canceled : Context := ⟨some ctxError.Canceled⟩

/-- The nondeterministic choices of one `Dequeue` call: the position (modulo the
number of keys) of the key that `Range` visits first in the first and in the
second call of `dequeue`, and whether `select` takes the `ctx.Done()` case when
both of its cases are ready. -/
structure Choice where
  rangeFirst : Nat
  selectCtx : Bool
  rangeSecond : Nat
  deriving DecidableEq, Repr

/-- What a `Dequeue` call does: it returns a node pointer and an error, or it
stays blocked in `select` because neither case is ready. -/
inductive DequeueResult where
  | returned (node : Option componentNode) (err : Option ctxError)
  | blocked
  deriving DecidableEq, Repr

/-- The function `newUpdateQueue`: an empty map and an empty channel. -/
def newUpdateQueue : updateQueue :=
  { updated := [], updateCh := false }

/-- The call `uq.updated.Store(cn, struct{}{})`: the key is present afterwards,
once. -/
def Store (m : List componentNode) (cn : componentNode) : List componentNode :=
  if cn ∈ m then m else m ++ [cn]

/-- The call `uq.updated.Delete(key)`: the key is absent afterwards. -/
def Delete (m : List componentNode) (key : componentNode) : List componentNode :=
  m.filter (fun x => x != key)

/-- The method `updateQueue.Enqueue`: store the key, then send on `updateCh`
without blocking; the `default` case drops the signal when the slot is full,
so in both cases the slot is full afterwards. -/
def updateQueue.Enqueue (uq : updateQueue) (cn : componentNode) : updateQueue :=
  let updated := Store uq.updated cn
  if uq.updateCh then
    { updated := updated, updateCh := uq.updateCh }
  else
    { updated := updated, updateCh := true }

/-- The method `updateQueue.dequeue`: `Range` calls the function on the first key
it visits, which records the key, deletes it and stops the iteration; with no
key in the map the function is never called and the result is nil. `first` picks
the key that is visited first. -/
def updateQueue.dequeue (uq : updateQueue) (first : Nat) :
    Option componentNode × updateQueue :=
  match uq.updated[first % uq.updated.length]? with
  | some key => (some key, { uq with updated := Delete uq.updated key })
  | none => (none, uq)

/-- The method `updateQueue.Dequeue`, as one atomic step. -/
def updateQueue.Dequeue (uq : updateQueue) (ctx : Context) (c : Choice) :
    DequeueResult × updateQueue :=
  -- Try to dequeue immediately if there's something in the queue.
  match uq.dequeue c.rangeFirst with
  | (some elem, uq1) => (DequeueResult.returned (some elem) none, uq1)
  | (none, uq1) =>
    -- Otherwise, wait for updateCh to be readable.
    let caseCtx : DequeueResult × updateQueue :=
      (DequeueResult.returned none ctx.Err, uq1)
    let caseCh : DequeueResult × updateQueue :=
      let r := ({ uq1 with updateCh := false } : updateQueue).dequeue c.rangeSecond
      (DequeueResult.returned r.1 none, r.2)
    match ctx.Err.isSome, uq1.updateCh with
    | true, true => if c.selectCtx then caseCtx else caseCh
    | true, false => caseCtx
    | false, true => caseCh
    | false, false => (DequeueResult.blocked, uq1)

/-- Enqueue every node of a list, in order, with no Dequeue in between. -/
def EnqueueAll (uq : updateQueue) (cns : List componentNode) : updateQueue :=
  cns.foldl updateQueue.Enqueue uq

/-- A run of `Dequeue` calls, one per element of the list, each with its own
context and choices; the results are listed in the order of the calls. -/
def DequeueSeq : updateQueue → List (Context × Choice) → List DequeueResult × updateQueue
  | uq, [] => ([], uq)
  | uq, (ctx, c) :: rest =>
    let r := uq.Dequeue ctx c
    let rs := DequeueSeq r.2 rest
    (r.1 :: rs.1, rs.2)

/-- The number of wake signals buffered in `updateCh`. -/
def updateQueue.wakeSignals (uq : updateQueue) : Nat :=
  if uq.updateCh then 1 else 0

/-- The queue states that a sequence of `Enqueue` and `Dequeue` calls, each taken
as one atomic step, reaches from `newUpdateQueue`. -/
inductive Reachable : updateQueue → Prop where
  | init : Reachable newUpdateQueue
  | enqueue (uq : updateQueue) (cn : componentNode) :
      Reachable uq → Reachable (uq.Enqueue cn)
  | dequeue (uq : updateQueue) (ctx : Context) (c : Choice) :
      Reachable uq → Reachable (uq.Dequeue ctx c).2

end flow

namespace prometheus

/-- The type `model.Duration` of the Prometheus library: a 64-bit count of
nanoseconds. `ApplyDefaults` only compares and copies durations. -/
abbrev Duration := Int

/-- An `error` value of the package: nil is `none` in `Option error`. The
package-level `instanceStoppedNormallyErr` is one value, the errors that the run
group returns are the others. -/
inductive error where
  | instanceStoppedNormallyErr
  | runGroupErr (id : Nat)
  deriving DecidableEq, Repr

/-- The fields of `config.GlobalConfig` (Prometheus library) that the package
reads. -/
structure GlobalConfig where
  ScrapeInterval : Duration
  ScrapeTimeout : Duration
  deriving DecidableEq, Repr

/-- The type `config.ScrapeConfig` (Prometheus library): the fields that the
package reads or writes, and `rest` for all the others. -/
structure ScrapeConfig where
  JobName : String
  ScrapeInterval : Duration
  ScrapeTimeout : Duration
  rest : Nat
  deriving DecidableEq, Repr

/-- A `*config.ScrapeConfig`: `none` is nil, `some a` points to the object at
address `a`. -/
abbrev ScrapeConfigPtr := Option Nat

/-- The scrape config objects that the pointers refer to, by address. -/
abbrev Heap := Nat → ScrapeConfig

/-- The type `InstanceConfig`. The remote write configs are pointers that this
file never follows. -/
structure InstanceConfig where
  Name : String
  ScrapeConfigs : List ScrapeConfigPtr
  RemoteWrite : List (Option Nat)
  deriving DecidableEq, Repr

/-- The body of the loop of `ApplyDefaults`, on the object `sc` points to. -/
def applyDefaultsBody (global : GlobalConfig) (sc : ScrapeConfig) : ScrapeConfig :=
  let sc1 : ScrapeConfig :=
    if sc.ScrapeInterval == 0 then
      { sc with ScrapeInterval := global.ScrapeInterval }
    else sc
  if sc1.ScrapeTimeout == 0 then
    if global.ScrapeTimeout > sc1.ScrapeInterval then
      { sc1 with ScrapeTimeout := sc1.ScrapeInterval }
    else
      { sc1 with ScrapeTimeout := global.ScrapeTimeout }
  else sc1

/-- The loop `for _, sc := range c.ScrapeConfigs` of `ApplyDefaults`: each pointer
is followed and the object it refers to is updated in place; following a nil
pointer panics (`none`). -/
def applyDefaultsLoop (global : GlobalConfig) : List ScrapeConfigPtr → Heap → Option Heap
  | [], h => some h
  | none :: _, _ => none
  | some a :: scs, h =>
    applyDefaultsLoop global scs (Function.update h a (applyDefaultsBody global (h a)))

/-- The method `InstanceConfig.ApplyDefaults`, for a non-nil `global`: the result
is the receiver after the call together with the objects its scrape configs point
to, or `none` when the call panics. -/
def InstanceConfig.ApplyDefaults (c : InstanceConfig) (global : GlobalConfig) (h : Heap) :
    Option (InstanceConfig × Heap) :=
  (applyDefaultsLoop global c.ScrapeConfigs h).map (fun h1 => (c, h1))

/-- The fields of the type `instance` that `Err`, `Stop` and `run` share:
`exitErr`, whether the field `cancelScrape` has been assigned (line 108), whether
the scrape context has been canceled, and whether the channel `exited` is
closed. None of them is guarded by a lock. -/
structure Instance where
  exitErr : Option error
  cancelScrapeSet : Bool
  scrapeCanceled : Bool
  exited : Bool
  deriving DecidableEq, Repr

/-- The instance that `newInstance` builds: no exit error, no `cancelScrape` yet,
`exited` open. -/
def newInstance : Instance :=
  { exitErr := none, cancelScrapeSet := false, scrapeCanceled := false, exited := false }

/-- The method `instance.Err`. -/
def Instance.Err (i : Instance) : Option error :=
  i.exitErr

/-- Where the goroutine `go i.run(wstore)` of line 95 stands. -/
inductive runPc where
  /-- The goroutine has not reached line 108. -/
  | notStarted
  /-- The field `cancelScrape` is assigned and `g.Run()` (line 176) is running. -/
  | inGroup
  /-- The call `g.Run()` has returned `err`; the check of line 180 comes next. -/
  | returned (err : Option error)
  /-- The check `i.exitErr == nil` of line 180 was true; the write of line 181
  comes next. -/
  | writing (err : Option error)
  /-- The `if` statement of lines 180 to 182 is done; `close(i.exited)` comes
  next. -/
  | closing
  /-- The channel `exited` is closed, `run` has returned. -/
  | finished
  deriving DecidableEq, Repr

/-- Where a call of `Stop` stands. -/
inductive stopPc where
  /-- The method `Stop` has not been called. -/
  | notCalled
  /-- The write of line 189 is done; `i.cancelScrape()` comes next. -/
  | wrote
  /-- The call `i.cancelScrape()` is done; the receive `<-i.exited` comes next. -/
  | waiting
  /-- The method `Stop` has returned. -/
  | returned
  /-- The call `i.cancelScrape()` found the field nil and panicked. -/
  | panicked
  deriving DecidableEq, Repr

/-- An instance together with the goroutine `run` and the caller of `Stop`, which
run concurrently. -/
structure Machine where
  inst : Instance
  run : runPc
  stop : stopPc
  deriving DecidableEq, Repr

/-- The machine right after `newInstance` has started the goroutine. -/
def newMachine : Machine :=
  { inst := newInstance, run := runPc.notStarted, stop := stopPc.notCalled }

/-- The atomic steps of the two threads: the statements of `run` and of `Stop`
that read or write the shared fields, and the return of the run group. -/
inductive Event where
  /-- Lines 107 and 108 of `run`: `i.cancelScrape = cancelScrape`. -/
  | runStart
  /-- Line 176 of `run`: `g.Run()` returns `err`. -/
  | runGroupExit (err : Option error)
  /-- Line 180 of `run`: the check `i.exitErr == nil`. -/
  | runCheck
  /-- Line 181 of `run`: the write `i.exitErr = err`. -/
  | runWrite
  /-- Line 184 of `run`: `close(i.exited)`. -/
  | runClose
  /-- Line 189 of `Stop`: `i.exitErr = instanceStoppedNormallyErr`. -/
  | stopWrite
  /-- Line 192 of `Stop`: `i.cancelScrape()`. -/
  | stopCancel
  /-- Line 193 of `Stop`: the receive `<-i.exited`, possible once the channel is
  closed. -/
  | stopWait
  deriving DecidableEq, Repr

/-- One step of a thread; `none` when the thread is not at that statement, or
when the statement cannot proceed yet. -/
def Machine.step (s : Machine) : Event → Option Machine
  | Event.runStart =>
    match s.run with
    | runPc.notStarted =>
      some { s with inst := { s.inst with cancelScrapeSet := true }, run := runPc.inGroup }
    | _ => none
  | Event.runGroupExit err =>
    match s.run with
    | runPc.inGroup => some { s with run := runPc.returned err }
    | _ => none
  | Event.runCheck =>
    match s.run with
    | runPc.returned err =>
      if s.inst.exitErr == none then
        some { s with run := runPc.writing err }
      else
        some { s with run := runPc.closing }
    | _ => none
  | Event.runWrite =>
    match s.run with
    | runPc.writing err =>
      some { s with inst := { s.inst with exitErr := err }, run := runPc.closing }
    | _ => none
  | Event.runClose =>
    match s.run with
    | runPc.closing =>
      some { s with inst := { s.inst with exited := true }, run := runPc.finished }
    | _ => none
  | Event.stopWrite =>
    match s.stop with
    | stopPc.notCalled =>
      some { s with
        inst := { s.inst with exitErr := some error.instanceStoppedNormallyErr },
        stop := stopPc.wrote }
    | _ => none
  | Event.stopCancel =>
    match s.stop with
    | stopPc.wrote =>
      if s.inst.cancelScrapeSet then
        some { s with inst := { s.inst with scrapeCanceled := true }, stop := stopPc.waiting }
      else
        some { s with stop := stopPc.panicked }
    | _ => none
  | Event.stopWait =>
    match s.stop with
    | stopPc.waiting => if s.inst.exited then some { s with stop := stopPc.returned } else none
    | _ => none

/-- The machine after a schedule, a sequence of steps with the earliest first;
`none` when a step of the schedule is not possible. -/
def Machine.exec (s : Machine) : List Event → Option Machine
  | [] => some s
  | ev :: evs =>
    match s.step ev with
    | some s1 => s1.exec evs
    | none => none

/-- The run group returns `err` and `run` passes the check of line 180; then
`Stop` is called and writes `exitErr`; then `run` writes `exitErr` and closes
`exited`, and `Stop` cancels, receives and returns. -/
def raceSchedule (err : Option error) : List Event :=
  [Event.runStart, Event.runGroupExit err, Event.runCheck, Event.stopWrite,
    Event.runWrite, Event.runClose, Event.stopCancel, Event.stopWait]

/-- The method `Stop` is called, writes and cancels first; then the run group
returns `err` and `run` finishes; then `Stop` returns. -/
def stopFirstSchedule (err : Option error) : List Event :=
  [Event.runStart, Event.stopWrite, Event.stopCancel, Event.runGroupExit err,
    Event.runCheck, Event.runClose, Event.stopWait]

/-- The run group returns `err` and `run` finishes first; then `Stop` is called
and returns. -/
def runFirstSchedule (err : Option error) : List Event :=
  [Event.runStart, Event.runGroupExit err, Event.runCheck, Event.runWrite,
    Event.runClose, Event.stopWrite, Event.stopCancel, Event.stopWait]

/-- The run group returns `err` and `run` finishes; `Stop` is never called. -/
def neverStoppedSchedule (err : Option error) : List Event :=
  [Event.runStart, Event.runGroupExit err, Event.runCheck, Event.runWrite,
    Event.runClose]

end prometheus

namespace rules

/-- One rule of a rule group: the fields that the test sets. -/
structure Rule where
  Alert : String
  Expr : String
  deriving DecidableEq, Repr

/-- The type `mimirClient.RuleGroup` (package pkg/mimir/client): the name of the
group and its rules. -/
structure RuleGroup where
  Name : String
  Rules : List Rule
  deriving DecidableEq, Repr

/-- A Go `map[string][]mimirClient.RuleGroup`: finitely many entries with distinct
keys. -/
abbrev RuleMap := AList (fun _ : String => List RuleGroup)

/-- The type `fakeMimirClient`. -/
structure fakeMimirClient where
  rules : RuleMap

/-- The function `newFakeMimirClient`: an empty map. -/
def newFakeMimirClient : fakeMimirClient :=
  { rules := ∅ }

/-- The expression `m.rules[ns]`: the nil slice for a key that is not in the
map. -/
def fakeMimirClient.get (m : fakeMimirClient) (ns : String) : List RuleGroup :=
  (m.rules.lookup ns).getD []

/-- The inner loop `for i, g := range v` of `DeleteRuleGroup`: the index of the
first group whose name is `group`, if there is one. -/
def indexOfGroup : List RuleGroup → String → Option Nat
  | [], _ => none
  | g :: v, group =>
    if g.Name == group then some 0 else (indexOfGroup v group).map (fun i => i + 1)

/-- The body of the `if g.Name == group` statement of `DeleteRuleGroup`, for the
key `ns`, its slice `v` (which is `m.rules[ns]`) and the index `i` of the group:
the group is cut out of the slice, and the key is deleted when the slice is empty
afterwards. -/
def deleteAt (m : fakeMimirClient) (ns : String) (v : List RuleGroup) (i : Nat) :
    fakeMimirClient :=
  let m1 : fakeMimirClient := { rules := m.rules.insert ns (v.take i ++ v.drop (i + 1)) }
  if (m1.get ns).length == 0 then
    { rules := m1.rules.erase ns }
  else
    m1

/-- The loop `for ns, v := range m.rules` of `DeleteRuleGroup` over the entries in
the order in which they are visited: at the first group named `group` the group
is removed and the function returns; when the loop ends nothing has changed. -/
def deleteLoop (m : fakeMimirClient) (group : String) :
    List (Sigma (fun _ : String => List RuleGroup)) → fakeMimirClient
  | [] => m
  | ⟨ns, v⟩ :: rest =>
    match indexOfGroup v group with
    | some i => deleteAt m ns v i
    | none => deleteLoop m group rest

/-- The method `fakeMimirClient.DeleteRuleGroup`. The order in which `range`
visits the keys of a Go map is not specified: `start` is the position of the entry
that is visited first, the others follow cyclically. The body never reads the
argument `nspace` (`namespace` in the source). -/
def fakeMimirClient.DeleteRuleGroup (m : fakeMimirClient) (start : Nat)
    (_nspace group : String) : fakeMimirClient :=
  deleteLoop m group (m.rules.entries.rotate start)

/-- The method `fakeMimirClient.CreateRuleGroup`. `start` is the position of the
entry that the `range` loop of `DeleteRuleGroup` visits first. -/
def fakeMimirClient.CreateRuleGroup (m : fakeMimirClient) (start : Nat)
    (nspace : String) (rule : RuleGroup) : fakeMimirClient :=
  let m1 := m.DeleteRuleGroup start nspace rule.Name
  { rules := m1.rules.insert nspace (m1.get nspace ++ [rule]) }

/-- The method `fakeMimirClient.ListRules`: the output map gets the entries of
`m.rules` whose key is `nspace`, or all entries when `nspace` is empty. -/
def fakeMimirClient.ListRules (m : fakeMimirClient) (nspace : String) : RuleMap :=
  m.rules.entries.foldl
    (fun output e => if nspace != "" && nspace != e.1 then output else output.insert e.1 e.2)
    ∅

/-- The clients that a sequence of `CreateRuleGroup` and `DeleteRuleGroup` calls
reaches from `newFakeMimirClient`. -/
inductive fakeMimirClient.Reachable : fakeMimirClient → Prop where
  | init : fakeMimirClient.Reachable newFakeMimirClient
  | create (m : fakeMimirClient) (start : Nat) (nspace : String) (rule : RuleGroup) :
      fakeMimirClient.Reachable m →
      fakeMimirClient.Reachable (m.CreateRuleGroup start nspace rule)
  | delete (m : fakeMimirClient) (start : Nat) (nspace group : String) :
      fakeMimirClient.Reachable m →
      fakeMimirClient.Reachable (m.DeleteRuleGroup start nspace group)

/-- No two rule groups of the client have the same name, neither in one namespace
nor in two. -/
def fakeMimirClient.UniqueNames (m : fakeMimirClient) : Prop :=
  (∀ ns v, m.rules.lookup ns = some v → (v.map RuleGroup.Name).Nodup) ∧
  (∀ n1 v1 n2 v2, n1 ≠ n2 → m.rules.lookup n1 = some v1 → m.rules.lookup n2 = some v2 →
    ∀ g1 ∈ v1, ∀ g2 ∈ v2, g1.Name ≠ g2.Name)

/-- The client of `TestEventLoop` once the rule group "group" with its one alert
rule has been created in the namespace "namespace". -/
def clientWithOneGroup : fakeMimirClient :=
  newFakeMimirClient.CreateRuleGroup 0 "namespace" ⟨"group", [⟨"alert", "expr"⟩]⟩

end rules

namespace flow

/-! ## The update queue -/

theorem mem_Store (m : List componentNode) (cn x : componentNode) :
    x ∈ Store m cn ↔ x ∈ m ∨ x = cn := by
  unfold Store
  by_cases hc : cn ∈ m
  · rw [if_pos hc]
    constructor
    · exact Or.inl
    · rintro (h | h)
      · exact h
      · exact h ▸ hc
  · rw [if_neg hc]
    simp

theorem mem_Delete (m : List componentNode) (key x : componentNode) :
    x ∈ Delete m key ↔ x ∈ m ∧ x ≠ key := by
  simp [Delete]

theorem length_Delete_lt (m : List componentNode) (key : componentNode) (h : key ∈ m) :
    (Delete m key).length < m.length := by
  induction m with
  | nil => cases h
  | cons a t ih =>
    by_cases ha : a = key
    · have hle : (t.filter (fun x => x != key)).length ≤ t.length := List.length_filter_le _ _
      simp only [Delete, List.filter_cons, ha, bne_self_eq_false, List.length_cons]
      simpa using Nat.lt_succ_of_le hle
    · have ht : key ∈ t := by
        rcases List.mem_cons.mp h with h1 | h1
        · exact absurd h1.symm ha
        · exact h1
      have := ih ht
      simp only [Delete] at this
      simp [Delete, List.filter_cons, ha, this]

theorem dequeue_of_ne_nil (uq : updateQueue) (first : Nat) (h : uq.updated ≠ []) :
    ∃ key, key ∈ uq.updated ∧
      uq.dequeue first = (some key, { uq with updated := Delete uq.updated key }) := by
  have hpos : 0 < uq.updated.length := List.length_pos.mpr h
  have hlt : first % uq.updated.length < uq.updated.length := Nat.mod_lt _ hpos
  refine ⟨uq.updated[first % uq.updated.length], List.getElem_mem _, ?_⟩
  simp [updateQueue.dequeue, List.getElem?_eq_getElem hlt]

theorem dequeue_of_eq_nil (uq : updateQueue) (first : Nat) (h : uq.updated = []) :
    uq.dequeue first = (none, uq) := by
  simp [updateQueue.dequeue, h]

theorem Dequeue_of_ne_nil (uq : updateQueue) (ctx : Context) (c : Choice)
    (h : uq.updated ≠ []) :
    ∃ n, n ∈ uq.updated ∧
      uq.Dequeue ctx c =
        (DequeueResult.returned (some n) none, { uq with updated := Delete uq.updated n }) := by
  obtain ⟨key, hmem, hk⟩ := dequeue_of_ne_nil uq c.rangeFirst h
  exact ⟨key, hmem, by simp [updateQueue.Dequeue, hk]⟩

theorem Dequeue_updated_of_eq_nil (uq : updateQueue) (ctx : Context) (c : Choice)
    (h : uq.updated = []) : (uq.Dequeue ctx c).2.updated = [] := by
  have h1 : uq.dequeue c.rangeFirst = (none, uq) := dequeue_of_eq_nil uq _ h
  have h2 : ({ uq with updateCh := false } : updateQueue).dequeue c.rangeSecond
      = (none, { uq with updateCh := false }) := dequeue_of_eq_nil _ _ h
  simp only [updateQueue.Dequeue, h1, h2]
  cases ctx.Err.isSome <;> cases uq.updateCh <;> cases c.selectCtx <;> simp [h]

theorem reachable_nil_true : Reachable (⟨[], true⟩ : updateQueue) := by
  have he : newUpdateQueue.Enqueue 0 = ⟨[0], true⟩ := by
    simp [newUpdateQueue, updateQueue.Enqueue, Store]
  obtain ⟨m, hm, hD⟩ := Dequeue_of_ne_nil ⟨[0], true⟩ Context.background ⟨0, false, 0⟩ (by simp)
  have hm0 : m = 0 := by simpa using hm
  subst hm0
  have hr := Reachable.dequeue _ Context.background ⟨0, false, 0⟩
    (Reachable.enqueue _ 0 Reachable.init)
  rw [he, hD] at hr
  simpa [Delete] using hr

theorem Enqueue_updated (uq : updateQueue) (cn : componentNode) :
    (uq.Enqueue cn).updated = Store uq.updated cn := by
  unfold updateQueue.Enqueue
  cases uq.updateCh <;> simp

theorem Enqueue_updateCh (uq : updateQueue) (cn : componentNode) :
    (uq.Enqueue cn).updateCh = true := by
  unfold updateQueue.Enqueue
  cases h : uq.updateCh <;> simp [h]

theorem Store_of_mem (m : List componentNode) (cn : componentNode) (h : cn ∈ m) :
    Store m cn = m := by
  simp [Store, h]

theorem Enqueue_Enqueue (uq : updateQueue) (cn : componentNode) :
    (uq.Enqueue cn).Enqueue cn = uq.Enqueue cn := by
  have hmem : cn ∈ (uq.Enqueue cn).updated := by
    rw [Enqueue_updated]
    exact (mem_Store _ _ _).mpr (Or.inr rfl)
  have h1 : ((uq.Enqueue cn).Enqueue cn).updated = (uq.Enqueue cn).updated := by
    rw [Enqueue_updated (uq.Enqueue cn) cn]
    exact Store_of_mem _ _ hmem
  have h2 : ((uq.Enqueue cn).Enqueue cn).updateCh = (uq.Enqueue cn).updateCh := by
    rw [Enqueue_updateCh, Enqueue_updateCh]
  cases hA : (uq.Enqueue cn).Enqueue cn
  cases hB : uq.Enqueue cn
  rw [hA, hB] at h1 h2
  simp only at h1 h2
  rw [h1, h2]

theorem count_Store (m : List componentNode) (cn x : componentNode) :
    (Store m cn).count x = if x ∈ m then m.count x else if x = cn then 1 else 0 := by
  unfold Store
  by_cases hc : cn ∈ m
  · rw [if_pos hc]
    by_cases hx : x ∈ m
    · rw [if_pos hx]
    · have hne : x ≠ cn := fun h => hx (h ▸ hc)
      rw [if_neg hx, if_neg hne]
      exact List.count_eq_zero_of_not_mem hx
  · rw [if_neg hc]
    by_cases hx : x ∈ m
    · have hne : cn ≠ x := fun h => hc (h ▸ hx)
      rw [if_pos hx]
      simp [List.count_append, List.count_cons, hne]
    · rw [if_neg hx]
      have h0 : m.count x = 0 := List.count_eq_zero_of_not_mem hx
      by_cases hxc : x = cn
      · subst hxc
        simp [List.count_append, h0]
      · have hne : cn ≠ x := fun h => hxc h.symm
        simp [List.count_append, List.count_cons, h0, hxc, hne]

theorem EnqueueAll_cons (uq : updateQueue) (cn : componentNode) (cns : List componentNode) :
    EnqueueAll uq (cn :: cns) = EnqueueAll (uq.Enqueue cn) cns := rfl

theorem EnqueueAll_count (cns : List componentNode) :
    ∀ (uq : updateQueue) (x : componentNode),
      (EnqueueAll uq cns).updated.count x =
        if x ∈ uq.updated then uq.updated.count x else if x ∈ cns then 1 else 0 := by
  induction cns with
  | nil =>
    intro uq x
    by_cases hx : x ∈ uq.updated
    · simp [EnqueueAll, hx]
    · simp [EnqueueAll, hx, List.count_eq_zero_of_not_mem hx]
  | cons a t ih =>
    intro uq x
    rw [EnqueueAll_cons, ih (uq.Enqueue a) x, Enqueue_updated, count_Store]
    simp only [mem_Store]
    by_cases hx : x ∈ uq.updated
    · simp [hx]
    · by_cases hxa : x = a
      · simp [hx, hxa]
      · simp [hx, hxa]

theorem EnqueueAll_updateCh (cns : List componentNode) :
    ∀ (uq : updateQueue), cns ≠ [] → (EnqueueAll uq cns).updateCh = true := by
  induction cns with
  | nil => intro uq h; exact absurd rfl h
  | cons a t ih =>
    intro uq _
    rw [EnqueueAll_cons]
    cases t with
    | nil => exact Enqueue_updateCh uq a
    | cons b t2 => exact ih (uq.Enqueue a) (by simp)

theorem EnqueueAll_replicate_singleton (n : componentNode) (k : Nat) :
    EnqueueAll ⟨[n], true⟩ (List.replicate k n) = ⟨[n], true⟩ := by
  induction k with
  | zero => rfl
  | succ k ih =>
    have he : (⟨[n], true⟩ : updateQueue).Enqueue n = ⟨[n], true⟩ := by
      simp [updateQueue.Enqueue, Store]
    rw [List.replicate_succ, EnqueueAll_cons, he, ih]

theorem EnqueueAll_new_replicate (n : componentNode) (N : Nat) (h : 0 < N) :
    EnqueueAll newUpdateQueue (List.replicate N n) = ⟨[n], true⟩ := by
  obtain ⟨k, rfl⟩ : ∃ k, N = k + 1 := ⟨N - 1, by omega⟩
  have he : newUpdateQueue.Enqueue n = ⟨[n], true⟩ := by
    simp [newUpdateQueue, updateQueue.Enqueue, Store]
  rw [List.replicate_succ, EnqueueAll_cons, he, EnqueueAll_replicate_singleton]

theorem DequeueSeq_finds (calls : List (Context × Choice)) :
    ∀ (uq : updateQueue) (n : componentNode), n ∈ uq.updated →
      uq.updated.length ≤ calls.length →
      ∃ i, i < uq.updated.length ∧
        (DequeueSeq uq calls).1[i]? = some (DequeueResult.returned (some n) none) ∧
        ∀ j, j < i → ∃ m, (DequeueSeq uq calls).1[j]?
          = some (DequeueResult.returned (some m) none) := by
  induction calls with
  | nil =>
    intro uq n hn hlen
    have : uq.updated = [] := List.length_eq_zero.mp (Nat.le_zero.mp hlen)
    rw [this] at hn
    cases hn
  | cons cc rest ih =>
    intro uq n hn hlen
    obtain ⟨ctx, c⟩ := cc
    have hne : uq.updated ≠ [] := List.ne_nil_of_mem hn
    have hpos : 0 < uq.updated.length := List.length_pos.mpr hne
    obtain ⟨m, hm, hD⟩ := Dequeue_of_ne_nil uq ctx c hne
    have hseq : DequeueSeq uq ((ctx, c) :: rest) =
        (DequeueResult.returned (some m) none ::
          (DequeueSeq { uq with updated := Delete uq.updated m } rest).1,
          (DequeueSeq { uq with updated := Delete uq.updated m } rest).2) := by
      simp [DequeueSeq, hD]
    by_cases hmn : m = n
    · subst hmn
      refine ⟨0, hpos, by rw [hseq]; simp, ?_⟩
      intro j hj
      exact absurd hj (Nat.not_lt_zero j)
    · have hn2 : n ∈ Delete uq.updated m :=
        (mem_Delete _ _ _).mpr ⟨hn, fun h => hmn h.symm⟩
      have hlt : (Delete uq.updated m).length < uq.updated.length :=
        length_Delete_lt _ _ hm
      have hlen2 : (Delete uq.updated m).length ≤ rest.length := by
        simp only [List.length_cons] at hlen
        omega
      obtain ⟨i, hi, hres, hbefore⟩ :=
        ih { uq with updated := Delete uq.updated m } n hn2 hlen2
      refine ⟨i + 1, by simp only at hi; omega, by rw [hseq]; simpa using hres, ?_⟩
      intro j hj
      rw [hseq]
      cases j with
      | zero => exact ⟨m, by simp⟩
      | succ j2 =>
        obtain ⟨m2, hm2⟩ := hbefore j2 (by omega)
        exact ⟨m2, by simpa using hm2⟩

theorem reachable_signal (uq : updateQueue) (h : Reachable uq) :
    uq.updated ≠ [] → uq.updateCh = true := by
  induction h with
  | init => intro h; exact absurd rfl h
  | enqueue uq cn _ _ => intro _; exact Enqueue_updateCh uq cn
  | dequeue uq ctx c _ ih =>
    intro hne
    by_cases he : uq.updated = []
    · exact absurd (Dequeue_updated_of_eq_nil uq ctx c he) hne
    · obtain ⟨n, _, hD⟩ := Dequeue_of_ne_nil uq ctx c he
      rw [hD]
      exact ih he

/-- C1: on a queue whose dirty set is not empty, `Dequeue` returns, for every
context and every choice of the runtime, a node of the dirty set with a nil error;
afterwards the dirty set holds exactly the other nodes that were pending, and the
wake channel is as before. -/
theorem Dequeue_nonempty_returns_member (uq : updateQueue) (ctx : Context) (c : Choice)
    (h : uq.updated ≠ []) :
    ∃ n, (uq.Dequeue ctx c).1 = DequeueResult.returned (some n) none ∧
      n ∈ uq.updated ∧
      (∀ x, x ∈ (uq.Dequeue ctx c).2.updated ↔ x ∈ uq.updated ∧ x ≠ n) ∧
      (uq.Dequeue ctx c).2.updateCh = uq.updateCh := by
  obtain ⟨n, hmem, hD⟩ := Dequeue_of_ne_nil uq ctx c h
  refine ⟨n, by rw [hD], hmem, ?_, by rw [hD]⟩
  intro x
  rw [hD]
  exact mem_Delete uq.updated n x

/-- Witness of C1: a queue holding the nodes 3 and 5, a canceled context. -/
theorem Dequeue_nonempty_returns_member_witness :
    ∃ n, ((⟨[3, 5], true⟩ : updateQueue).Dequeue Context.canceled ⟨1, true, 0⟩).1
        = DequeueResult.returned (some n) none ∧
      n ∈ (⟨[3, 5], true⟩ : updateQueue).updated ∧
      (∀ x, x ∈ ((⟨[3, 5], true⟩ : updateQueue).Dequeue Context.canceled ⟨1, true, 0⟩).2.updated
        ↔ x ∈ (⟨[3, 5], true⟩ : updateQueue).updated ∧ x ≠ n) ∧
      ((⟨[3, 5], true⟩ : updateQueue).Dequeue Context.canceled ⟨1, true, 0⟩).2.updateCh
        = (⟨[3, 5], true⟩ : updateQueue).updateCh :=
  Dequeue_nonempty_returns_member ⟨[3, 5], true⟩ Context.canceled ⟨1, true, 0⟩ (by decide)

/-- C2: after a single `Enqueue(n)` on a new queue, the first `Dequeue` returns `n`
and leaves the wake signal in the channel; the second `Dequeue`, with a live
context and an empty dirty set, does not block: it reads the stale signal and
returns a nil node with a nil error. -/
theorem Dequeue_twice_after_Enqueue_returns_nil_nil (n : componentNode) (c1 c2 : Choice) :
    ((newUpdateQueue.Enqueue n).Dequeue Context.background c1)
        = (DequeueResult.returned (some n) none, ⟨[], true⟩) ∧
      Reachable (⟨[], true⟩ : updateQueue) ∧
      (⟨[], true⟩ : updateQueue).Dequeue Context.background c2
        = (DequeueResult.returned none none, ⟨[], false⟩) := by
  have h1 : ((newUpdateQueue.Enqueue n).Dequeue Context.background c1)
      = (DequeueResult.returned (some n) none, ⟨[], true⟩) := by
    have he : newUpdateQueue.Enqueue n = ⟨[n], true⟩ := by
      simp [newUpdateQueue, updateQueue.Enqueue, Store]
    obtain ⟨m, hm, hD⟩ := Dequeue_of_ne_nil ⟨[n], true⟩ Context.background c1 (by simp)
    have hmn : m = n := by simpa using hm
    subst hmn
    rw [he, hD]
    simp [Delete]
  refine ⟨h1, ?_, ?_⟩
  · have hr := Reachable.dequeue _ Context.background c1
      (Reachable.enqueue _ n Reachable.init)
    rw [h1] at hr
    exact hr
  · simp [updateQueue.Dequeue, updateQueue.dequeue, Context.background]

/-- C3: the state reached by `Enqueue` and one `Dequeue` has an empty dirty set
and a wake signal in the channel; with a context that is already canceled both
cases of `select` are ready, and when `select` takes the channel case `Dequeue`
returns the nil result of `dequeue` with a nil error (line 44), not the
cancellation error. -/
theorem Dequeue_canceled_loses_to_wake_signal :
    Reachable (⟨[], true⟩ : updateQueue) ∧
      (⟨[], true⟩ : updateQueue).updated = [] ∧
      Context.canceled.Err = some ctxError.Canceled ∧
      ((⟨[], true⟩ : updateQueue).Dequeue Context.canceled ⟨0, false, 0⟩).1
        = DequeueResult.returned none none ∧
      ((⟨[], true⟩ : updateQueue).Dequeue Context.canceled ⟨0, false, 0⟩).1
        ≠ DequeueResult.returned none (some ctxError.Canceled) :=
  ⟨reachable_nil_true, rfl, rfl, by decide, by decide⟩

/-- The cancellation case of `select`: on a queue whose dirty set is empty, with a
context that is already done, `Dequeue` returns a nil node with the error of the context and
leaves the queue as it was, when no wake signal is in the channel or when
`select` takes the `ctx.Done()` case. -/
theorem Dequeue_empty_canceled (uq : updateQueue) (ctx : Context) (e : ctxError) (c : Choice)
    (hempty : uq.updated = []) (hctx : ctx.Err = some e)
    (hsel : uq.updateCh = false ∨ c.selectCtx = true) :
    uq.Dequeue ctx c = (DequeueResult.returned none (some e), uq) := by
  have h1 : uq.dequeue c.rangeFirst = (none, uq) := dequeue_of_eq_nil uq _ hempty
  simp only [updateQueue.Dequeue, h1, hctx, Option.isSome_some]
  rcases hsel with h | h
  · simp [h]
  · cases hch : uq.updateCh <;> simp [h]

/-- An instance of the cancellation case: empty dirty set, a pending wake signal, a canceled
context, and `select` takes the `ctx.Done()` case. -/
theorem Dequeue_empty_canceled_witness :
    (⟨[], true⟩ : updateQueue).Dequeue Context.canceled ⟨0, true, 0⟩
      = (DequeueResult.returned none (some ctxError.Canceled), ⟨[], true⟩) :=
  Dequeue_empty_canceled ⟨[], true⟩ Context.canceled ctxError.Canceled ⟨0, true, 0⟩
    rfl rfl (Or.inr rfl)

/-- C4: `Enqueue(n)` twice in a row leaves the same queue state, dirty set and
wake channel, as `Enqueue(n)` once. -/
theorem Enqueue_idempotent (uq : updateQueue) (n : componentNode) :
    (uq.Enqueue n).Enqueue n = uq.Enqueue n ∧
      (∀ x, x ∈ ((uq.Enqueue n).Enqueue n).updated ↔ x ∈ (uq.Enqueue n).updated) ∧
      ((uq.Enqueue n).Enqueue n).updateCh = (uq.Enqueue n).updateCh := by
  have h := Enqueue_Enqueue uq n
  exact ⟨h, fun x => by rw [h], by rw [h]⟩

/-- C5: after `Enqueue` on each node of a non-empty list, the dirty set holds the
nodes that were pending and the nodes of the list, each node of the list that was
not pending exactly once, and exactly one wake signal is in the channel. -/
theorem EnqueueAll_union_one_signal (uq : updateQueue) (cns : List componentNode)
    (h : cns ≠ []) :
    (∀ x, x ∈ (EnqueueAll uq cns).updated ↔ x ∈ uq.updated ∨ x ∈ cns) ∧
      (∀ x, x ∈ uq.updated → (EnqueueAll uq cns).updated.count x = uq.updated.count x) ∧
      (∀ x, x ∉ uq.updated → x ∈ cns → (EnqueueAll uq cns).updated.count x = 1) ∧
      (EnqueueAll uq cns).updateCh = true ∧
      (EnqueueAll uq cns).wakeSignals = 1 := by
  have hch := EnqueueAll_updateCh cns uq h
  refine ⟨?_, ?_, ?_, hch, by simp [updateQueue.wakeSignals, hch]⟩
  · intro x
    rw [← List.count_pos_iff, EnqueueAll_count]
    by_cases hx : x ∈ uq.updated
    · simp [hx, List.count_pos_iff]
    · by_cases hc : x ∈ cns
      · simp [hx, hc]
      · simp [hx, hc]
  · intro x hx
    rw [EnqueueAll_count, if_pos hx]
  · intro x hx hc
    rw [EnqueueAll_count, if_neg hx, if_pos hc]

/-- Witness of C5: the nodes 2, 4, 2 enqueued on a queue that holds 4 and has a
wake signal pending. -/
theorem EnqueueAll_union_one_signal_witness :
    (∀ x, x ∈ (EnqueueAll ⟨[4], true⟩ [2, 4, 2]).updated
        ↔ x ∈ (⟨[4], true⟩ : updateQueue).updated ∨ x ∈ [2, 4, 2]) ∧
      (∀ x, x ∈ (⟨[4], true⟩ : updateQueue).updated →
        (EnqueueAll ⟨[4], true⟩ [2, 4, 2]).updated.count x
          = (⟨[4], true⟩ : updateQueue).updated.count x) ∧
      (∀ x, x ∉ (⟨[4], true⟩ : updateQueue).updated → x ∈ [2, 4, 2] →
        (EnqueueAll ⟨[4], true⟩ [2, 4, 2]).updated.count x = 1) ∧
      (EnqueueAll ⟨[4], true⟩ [2, 4, 2]).updateCh = true ∧
      (EnqueueAll ⟨[4], true⟩ [2, 4, 2]).wakeSignals = 1 :=
  EnqueueAll_union_one_signal ⟨[4], true⟩ [2, 4, 2] (by decide)

/-- C6, counterexample: after two calls of `Enqueue(7)` on a new queue the next
`Dequeue` returns 7 through the fast path, which does not read the wake channel:
the wake signal is still pending afterwards, it has not been consumed. -/
theorem Dequeue_after_coalesced_Enqueue_keeps_signal :
    ((EnqueueAll newUpdateQueue (List.replicate 2 7)).Dequeue
        Context.background ⟨0, false, 0⟩).1 = DequeueResult.returned (some 7) none ∧
      ((EnqueueAll newUpdateQueue (List.replicate 2 7)).Dequeue
        Context.background ⟨0, false, 0⟩).2.updateCh = true ∧
      ((EnqueueAll newUpdateQueue (List.replicate 2 7)).Dequeue
        Context.background ⟨0, false, 0⟩).2.wakeSignals ≠ 0 := by
  decide

/-- C6, amended: starting from a new queue, `N > 1` calls of `Enqueue(n)` leave
exactly one pending entry, `n`, and exactly one pending wake signal; the next
`Dequeue` returns `n` with a nil error, whatever the context and the choices of
the runtime, and afterwards the dirty set is empty. -/
theorem Enqueue_coalesces_then_Dequeue (n : componentNode) (N : Nat) (h : 1 < N) :
    (EnqueueAll newUpdateQueue (List.replicate N n)).updated = [n] ∧
      (EnqueueAll newUpdateQueue (List.replicate N n)).wakeSignals = 1 ∧
      ∀ (ctx : Context) (c : Choice),
        ((EnqueueAll newUpdateQueue (List.replicate N n)).Dequeue ctx c).1
          = DequeueResult.returned (some n) none ∧
        ((EnqueueAll newUpdateQueue (List.replicate N n)).Dequeue ctx c).2.updated = [] := by
  rw [EnqueueAll_new_replicate n N (by omega)]
  refine ⟨rfl, rfl, ?_⟩
  intro ctx c
  obtain ⟨m, hm, hD⟩ := Dequeue_of_ne_nil ⟨[n], true⟩ ctx c (by simp)
  have hmn : m = n := by simpa using hm
  subst hmn
  rw [hD]
  exact ⟨rfl, by simp [Delete]⟩

/-- Witness of C6, amended: three calls of `Enqueue(7)`. -/
theorem Enqueue_coalesces_then_Dequeue_witness :
    (EnqueueAll newUpdateQueue (List.replicate 3 7)).updated = [7] ∧
      (EnqueueAll newUpdateQueue (List.replicate 3 7)).wakeSignals = 1 ∧
      ∀ (ctx : Context) (c : Choice),
        ((EnqueueAll newUpdateQueue (List.replicate 3 7)).Dequeue ctx c).1
          = DequeueResult.returned (some 7) none ∧
        ((EnqueueAll newUpdateQueue (List.replicate 3 7)).Dequeue ctx c).2.updated = [] :=
  Enqueue_coalesces_then_Dequeue 7 3 (by decide)

/-- C7: when `Dequeue` has returned `n` and `Enqueue(n)` is called afterwards, `n`
had left the dirty set and is pending again; in every run of `Dequeue` calls that
follows, at least as long as the dirty set, some call returns `n` with a nil
error, and every call before it returns a node with a nil error (none of them
blocks, fails or returns nil). -/
theorem Enqueue_after_Dequeue_not_lost (uq : updateQueue) (n : componentNode)
    (ctx : Context) (c : Choice)
    (h : (uq.Dequeue ctx c).1 = DequeueResult.returned (some n) none) :
    n ∉ (uq.Dequeue ctx c).2.updated ∧
      n ∈ ((uq.Dequeue ctx c).2.Enqueue n).updated ∧
      ∀ calls : List (Context × Choice),
        ((uq.Dequeue ctx c).2.Enqueue n).updated.length ≤ calls.length →
        ∃ i, i < ((uq.Dequeue ctx c).2.Enqueue n).updated.length ∧
          (DequeueSeq ((uq.Dequeue ctx c).2.Enqueue n) calls).1[i]?
            = some (DequeueResult.returned (some n) none) ∧
          ∀ j, j < i → ∃ m, (DequeueSeq ((uq.Dequeue ctx c).2.Enqueue n) calls).1[j]?
            = some (DequeueResult.returned (some m) none) := by
  have hmem : n ∈ ((uq.Dequeue ctx c).2.Enqueue n).updated := by
    rw [Enqueue_updated]
    exact (mem_Store _ _ _).mpr (Or.inr rfl)
  refine ⟨?_, hmem, fun calls hlen => DequeueSeq_finds calls _ n hmem hlen⟩
  by_cases he : uq.updated = []
  · rw [Dequeue_updated_of_eq_nil uq ctx c he]
    exact List.not_mem_nil n
  · obtain ⟨m, _, hD⟩ := Dequeue_of_ne_nil uq ctx c he
    rw [hD] at h ⊢
    have hmn : m = n := by
      injection h with h1
      exact Option.some.inj h1
    subst hmn
    intro hin
    exact ((mem_Delete _ _ _).mp hin).2 rfl

/-- Witness of C7: the queue holds 1, 2 and 3, `Dequeue` returns 2, and 2 is
enqueued again. -/
theorem Enqueue_after_Dequeue_not_lost_witness :
    2 ∉ ((⟨[1, 2, 3], true⟩ : updateQueue).Dequeue Context.background ⟨1, false, 0⟩).2.updated ∧
      2 ∈ (((⟨[1, 2, 3], true⟩ : updateQueue).Dequeue Context.background
        ⟨1, false, 0⟩).2.Enqueue 2).updated ∧
      ∀ calls : List (Context × Choice),
        (((⟨[1, 2, 3], true⟩ : updateQueue).Dequeue Context.background
          ⟨1, false, 0⟩).2.Enqueue 2).updated.length ≤ calls.length →
        ∃ i, i < (((⟨[1, 2, 3], true⟩ : updateQueue).Dequeue Context.background
            ⟨1, false, 0⟩).2.Enqueue 2).updated.length ∧
          (DequeueSeq (((⟨[1, 2, 3], true⟩ : updateQueue).Dequeue Context.background
            ⟨1, false, 0⟩).2.Enqueue 2) calls).1[i]?
            = some (DequeueResult.returned (some 2) none) ∧
          ∀ j, j < i → ∃ m, (DequeueSeq (((⟨[1, 2, 3], true⟩ : updateQueue).Dequeue
            Context.background ⟨1, false, 0⟩).2.Enqueue 2) calls).1[j]?
            = some (DequeueResult.returned (some m) none) :=
  Enqueue_after_Dequeue_not_lost ⟨[1, 2, 3], true⟩ 2 Context.background ⟨1, false, 0⟩
    (by decide)

/-- C10: in every queue state reached from `newUpdateQueue` by `Enqueue` and
`Dequeue` calls, each one atomic step, a non-empty dirty set comes with a pending
wake signal, and a `Dequeue` that blocks finds the dirty set empty. -/
theorem Reachable_nonempty_has_signal (uq : updateQueue) (h : Reachable uq) :
    (uq.updated ≠ [] → uq.updateCh = true ∧ uq.wakeSignals = 1) ∧
      ∀ (ctx : Context) (c : Choice),
        (uq.Dequeue ctx c).1 = DequeueResult.blocked → uq.updated = [] := by
  constructor
  · intro hne
    have hch := reachable_signal uq h hne
    exact ⟨hch, by simp [updateQueue.wakeSignals, hch]⟩
  · intro ctx c hb
    by_contra hne
    obtain ⟨n, _, hD⟩ := Dequeue_of_ne_nil uq ctx c hne
    rw [hD] at hb
    cases hb

/-- Witness of C10: the state after `Enqueue(1)`, `Enqueue(2)` and one `Dequeue`. -/
theorem Reachable_nonempty_has_signal_witness :
    Reachable (((newUpdateQueue.Enqueue 1).Enqueue 2).Dequeue
        Context.background ⟨0, false, 0⟩).2 ∧
      ((((newUpdateQueue.Enqueue 1).Enqueue 2).Dequeue
          Context.background ⟨0, false, 0⟩).2.updated ≠ [] →
        (((newUpdateQueue.Enqueue 1).Enqueue 2).Dequeue
          Context.background ⟨0, false, 0⟩).2.updateCh = true ∧
        (((newUpdateQueue.Enqueue 1).Enqueue 2).Dequeue
          Context.background ⟨0, false, 0⟩).2.wakeSignals = 1) ∧
      ∀ (ctx : Context) (c : Choice),
        ((((newUpdateQueue.Enqueue 1).Enqueue 2).Dequeue
          Context.background ⟨0, false, 0⟩).2.Dequeue ctx c).1 = DequeueResult.blocked →
        (((newUpdateQueue.Enqueue 1).Enqueue 2).Dequeue
          Context.background ⟨0, false, 0⟩).2.updated = [] :=
  ⟨Reachable.dequeue _ _ _ (Reachable.enqueue _ 2 (Reachable.enqueue _ 1 Reachable.init)),
    Reachable_nonempty_has_signal _
      (Reachable.dequeue _ _ _ (Reachable.enqueue _ 2 (Reachable.enqueue _ 1 Reachable.init)))⟩

end flow

namespace prometheus

/-! ## The instance configuration and the exit error of an instance -/

theorem applyDefaultsBody_ScrapeInterval (global : GlobalConfig) (sc : ScrapeConfig) :
    (applyDefaultsBody global sc).ScrapeInterval =
      if sc.ScrapeInterval ≠ 0 then sc.ScrapeInterval else global.ScrapeInterval := by
  unfold applyDefaultsBody
  by_cases h1 : sc.ScrapeInterval = 0 <;> by_cases h2 : sc.ScrapeTimeout = 0 <;>
    by_cases h3 : global.ScrapeTimeout > global.ScrapeInterval <;>
    by_cases h4 : global.ScrapeTimeout > sc.ScrapeInterval <;>
    simp [h1, h2, h3, h4]

theorem applyDefaultsBody_ScrapeTimeout (global : GlobalConfig) (sc : ScrapeConfig) :
    (applyDefaultsBody global sc).ScrapeTimeout =
      if sc.ScrapeTimeout ≠ 0 then sc.ScrapeTimeout
      else min global.ScrapeTimeout (applyDefaultsBody global sc).ScrapeInterval := by
  rw [applyDefaultsBody_ScrapeInterval]
  unfold applyDefaultsBody
  by_cases h1 : sc.ScrapeInterval = 0 <;> by_cases h2 : sc.ScrapeTimeout = 0 <;>
    by_cases h3 : global.ScrapeTimeout > global.ScrapeInterval <;>
    by_cases h4 : global.ScrapeTimeout > sc.ScrapeInterval <;>
    simp [h1, h2, h3, h4] <;>
    first
      | exact Int.le_of_lt h3
      | exact Int.not_lt.mp h3
      | exact Int.le_of_lt h4
      | exact Int.not_lt.mp h4

theorem applyDefaultsBody_frame (global : GlobalConfig) (sc : ScrapeConfig) :
    (applyDefaultsBody global sc).JobName = sc.JobName ∧
      (applyDefaultsBody global sc).rest = sc.rest := by
  unfold applyDefaultsBody
  by_cases h1 : sc.ScrapeInterval = 0 <;> by_cases h2 : sc.ScrapeTimeout = 0 <;>
    by_cases h3 : global.ScrapeTimeout > global.ScrapeInterval <;>
    by_cases h4 : global.ScrapeTimeout > sc.ScrapeInterval <;>
    simp [h1, h2, h3, h4]

theorem applyDefaultsBody_idem (global : GlobalConfig) (sc : ScrapeConfig) :
    applyDefaultsBody global (applyDefaultsBody global sc) = applyDefaultsBody global sc := by
  have hI := applyDefaultsBody_ScrapeInterval global (applyDefaultsBody global sc)
  have hT := applyDefaultsBody_ScrapeTimeout global (applyDefaultsBody global sc)
  have hF := applyDefaultsBody_frame global (applyDefaultsBody global sc)
  have hI0 := applyDefaultsBody_ScrapeInterval global sc
  have hT0 := applyDefaultsBody_ScrapeTimeout global sc
  have e1 : (applyDefaultsBody global (applyDefaultsBody global sc)).ScrapeInterval
      = (applyDefaultsBody global sc).ScrapeInterval := by
    rw [hI]
    by_cases h : (applyDefaultsBody global sc).ScrapeInterval = 0
    · rw [if_neg (not_not.mpr h), h]
      rw [hI0] at h
      by_cases h0 : sc.ScrapeInterval = 0
      · rw [if_neg (not_not.mpr h0)] at h
        exact h
      · rw [if_pos h0] at h
        exact absurd h h0
    · rw [if_pos h]
  have e2 : (applyDefaultsBody global (applyDefaultsBody global sc)).ScrapeTimeout
      = (applyDefaultsBody global sc).ScrapeTimeout := by
    rw [hT, e1]
    by_cases h : (applyDefaultsBody global sc).ScrapeTimeout = 0
    · rw [if_neg (not_not.mpr h)]
      by_cases h0 : sc.ScrapeTimeout = 0
      · rw [hT0, if_neg (not_not.mpr h0)]
      · rw [hT0, if_pos h0] at h
        exact absurd h h0
    · rw [if_pos h]
  cases hA : applyDefaultsBody global (applyDefaultsBody global sc)
  cases hB : applyDefaultsBody global sc
  rw [hA, hB] at e1 e2 hF
  simp only at e1 e2 hF
  rw [e1, e2, hF.1, hF.2]

theorem applyDefaultsLoop_spec (global : GlobalConfig) (scs : List ScrapeConfigPtr) :
    ∀ h : Heap, (∀ p ∈ scs, p ≠ none) →
      ∃ h1, applyDefaultsLoop global scs h = some h1 ∧
        ∀ a, h1 a = if some a ∈ scs then applyDefaultsBody global (h a) else h a := by
  induction scs with
  | nil =>
    intro h _
    exact ⟨h, rfl, fun a => by simp⟩
  | cons p t ih =>
    intro h hnil
    cases p with
    | none => exact absurd rfl (hnil none (List.mem_cons_self _ _))
    | some a =>
      obtain ⟨h1, hrun, hval⟩ :=
        ih (Function.update h a (applyDefaultsBody global (h a)))
          (fun q hq => hnil q (List.mem_cons_of_mem _ hq))
      refine ⟨h1, by simpa [applyDefaultsLoop] using hrun, ?_⟩
      intro b
      rw [hval b]
      by_cases hba : b = a
      · subst hba
        simp [applyDefaultsBody_idem]
      · have hne : (some b : ScrapeConfigPtr) ≠ some a := fun hh => hba (Option.some.inj hh)
        simp [Function.update_noteq hba, hba]

/-- C8: with non-nil scrape config pointers `ApplyDefaults` returns and leaves the
receiver (name, the scrape config pointers in their order, remote write) as it
was; every scrape config of the receiver keeps a non-zero `ScrapeInterval` and
gets the global one otherwise, keeps a non-zero `ScrapeTimeout` and gets the
smaller of the global timeout and its resulting interval otherwise, and keeps its
other fields; the objects the receiver does not point to are untouched. -/
theorem ApplyDefaults_fills_zero_values (c : InstanceConfig) (global : GlobalConfig) (h : Heap)
    (hnil : ∀ p ∈ c.ScrapeConfigs, p ≠ none) :
    ∃ h1, c.ApplyDefaults global h = some (c, h1) ∧
      (∀ a, some a ∈ c.ScrapeConfigs →
        (h1 a).ScrapeInterval =
          (if (h a).ScrapeInterval ≠ 0 then (h a).ScrapeInterval else global.ScrapeInterval) ∧
        (h1 a).ScrapeTimeout =
          (if (h a).ScrapeTimeout ≠ 0 then (h a).ScrapeTimeout
            else min global.ScrapeTimeout (h1 a).ScrapeInterval) ∧
        (h1 a).JobName = (h a).JobName ∧ (h1 a).rest = (h a).rest) ∧
      (∀ a, some a ∉ c.ScrapeConfigs → h1 a = h a) := by
  obtain ⟨h1, hrun, hval⟩ := applyDefaultsLoop_spec global c.ScrapeConfigs h hnil
  refine ⟨h1, by simp [InstanceConfig.ApplyDefaults, hrun], ?_, ?_⟩
  · intro a ha
    rw [hval a, if_pos ha]
    exact ⟨applyDefaultsBody_ScrapeInterval global (h a),
      applyDefaultsBody_ScrapeTimeout global (h a), applyDefaultsBody_frame global (h a)⟩
  · intro a ha
    rw [hval a, if_neg ha]

/-- Witness of C8: three pointers, two of them to the same object. -/
theorem ApplyDefaults_fills_zero_values_witness :
    ∃ h1, (⟨"agent", [some 0, some 1, some 0], []⟩ : InstanceConfig).ApplyDefaults ⟨60, 90⟩
        (fun a => if a = 0 then ⟨"a", 0, 0, 0⟩ else ⟨"b", 15, 10, 0⟩)
        = some (⟨"agent", [some 0, some 1, some 0], []⟩, h1) ∧
      (∀ a, some a ∈ (⟨"agent", [some 0, some 1, some 0], []⟩ : InstanceConfig).ScrapeConfigs →
        (h1 a).ScrapeInterval =
          (if ((fun a => if a = 0 then ⟨"a", 0, 0, 0⟩ else ⟨"b", 15, 10, 0⟩ : Heap) a).ScrapeInterval
              ≠ 0
            then ((fun a => if a = 0 then ⟨"a", 0, 0, 0⟩ else ⟨"b", 15, 10, 0⟩ : Heap) a).ScrapeInterval
            else (⟨60, 90⟩ : GlobalConfig).ScrapeInterval) ∧
        (h1 a).ScrapeTimeout =
          (if ((fun a => if a = 0 then ⟨"a", 0, 0, 0⟩ else ⟨"b", 15, 10, 0⟩ : Heap) a).ScrapeTimeout
              ≠ 0
            then ((fun a => if a = 0 then ⟨"a", 0, 0, 0⟩ else ⟨"b", 15, 10, 0⟩ : Heap) a).ScrapeTimeout
            else min (⟨60, 90⟩ : GlobalConfig).ScrapeTimeout (h1 a).ScrapeInterval) ∧
        (h1 a).JobName
          = ((fun a => if a = 0 then ⟨"a", 0, 0, 0⟩ else ⟨"b", 15, 10, 0⟩ : Heap) a).JobName ∧
        (h1 a).rest
          = ((fun a => if a = 0 then ⟨"a", 0, 0, 0⟩ else ⟨"b", 15, 10, 0⟩ : Heap) a).rest) ∧
      (∀ a, some a ∉ (⟨"agent", [some 0, some 1, some 0], []⟩ : InstanceConfig).ScrapeConfigs →
        h1 a = (fun a => if a = 0 then ⟨"a", 0, 0, 0⟩ else ⟨"b", 15, 10, 0⟩ : Heap) a) :=
  ApplyDefaults_fills_zero_values ⟨"agent", [some 0, some 1, some 0], []⟩ ⟨60, 90⟩
    (fun a => if a = 0 then ⟨"a", 0, 0, 0⟩ else ⟨"b", 15, 10, 0⟩) (by decide)

theorem exec_stopFirstSchedule (err : Option error) :
    newMachine.exec (stopFirstSchedule err) =
      some { inst := { exitErr := some error.instanceStoppedNormallyErr,
                       cancelScrapeSet := true, scrapeCanceled := true, exited := true },
             run := runPc.finished, stop := stopPc.returned } := by
  rfl

theorem exec_runFirstSchedule (err : Option error) :
    newMachine.exec (runFirstSchedule err) =
      some { inst := { exitErr := some error.instanceStoppedNormallyErr,
                       cancelScrapeSet := true, scrapeCanceled := true, exited := true },
             run := runPc.finished, stop := stopPc.returned } := by
  rfl

theorem exec_neverStoppedSchedule (err : Option error) :
    newMachine.exec (neverStoppedSchedule err) =
      some { inst := { exitErr := err,
                       cancelScrapeSet := true, scrapeCanceled := false, exited := true },
             run := runPc.finished, stop := stopPc.notCalled } := by
  rfl

theorem exec_raceSchedule (err : Option error) :
    newMachine.exec (raceSchedule err) =
      some { inst := { exitErr := err,
                       cancelScrapeSet := true, scrapeCanceled := true, exited := true },
             run := runPc.finished, stop := stopPc.returned } := by
  rfl

/-- C9: when the write of `Stop` (line 189) falls between the check of line 180
and the write of line 181 of `run`, `Stop` has been called and has returned, `run`
has exited, and `Err` returns what the run group returned, an error of the run
group or nil, and not `instanceStoppedNormallyErr`. -/
theorem Err_after_Stop_during_run_exit :
    (∀ err : Option error, ∃ s, newMachine.exec (raceSchedule err) = some s ∧
      s.stop = stopPc.returned ∧ s.run = runPc.finished ∧ s.inst.Err = err) ∧
    (∀ k : Nat, ∃ s, newMachine.exec (raceSchedule (some (error.runGroupErr k))) = some s ∧
      s.stop = stopPc.returned ∧
      s.inst.Err = some (error.runGroupErr k) ∧
      s.inst.Err ≠ some error.instanceStoppedNormallyErr) ∧
    (∃ s, newMachine.exec (raceSchedule none) = some s ∧
      s.stop = stopPc.returned ∧
      s.inst.Err = none ∧
      s.inst.Err ≠ some error.instanceStoppedNormallyErr) := by
  refine ⟨?_, ?_, ?_⟩
  · intro err
    exact ⟨_, exec_raceSchedule err, rfl, rfl, rfl⟩
  · intro k
    refine ⟨_, exec_raceSchedule _, rfl, rfl, ?_⟩
    intro h
    cases h
  · refine ⟨_, exec_raceSchedule none, rfl, rfl, ?_⟩
    intro h
    cases h

/-- The orders in which the steps of `Stop` and the exit of `run` do not
interleave: with `Stop` first or with the exit of `run` first `Err` returns
`instanceStoppedNormallyErr`, and when `Stop` is never called `Err` returns the
error of the run group. -/
theorem Err_sequential_orders (err : Option error) :
    (∃ s, newMachine.exec (stopFirstSchedule err) = some s ∧ s.stop = stopPc.returned ∧
      s.inst.Err = some error.instanceStoppedNormallyErr) ∧
    (∃ s, newMachine.exec (runFirstSchedule err) = some s ∧ s.stop = stopPc.returned ∧
      s.inst.Err = some error.instanceStoppedNormallyErr) ∧
    (∃ s, newMachine.exec (neverStoppedSchedule err) = some s ∧ s.stop = stopPc.notCalled ∧
      s.run = runPc.finished ∧ s.inst.Err = err) :=
  ⟨⟨_, exec_stopFirstSchedule err, rfl, rfl⟩, ⟨_, exec_runFirstSchedule err, rfl, rfl⟩,
    ⟨_, exec_neverStoppedSchedule err, rfl, rfl, rfl⟩⟩

end prometheus

namespace rules

/-! ## The fake rule store of the end-to-end test -/

theorem indexOfGroup_none (v : List RuleGroup) (group : String)
    (h : indexOfGroup v group = none) : ∀ g ∈ v, g.Name ≠ group := by
  induction v with
  | nil => intro g hg; cases hg
  | cons a t ih =>
    intro g hg
    by_cases ha : a.Name = group
    · simp [indexOfGroup, ha] at h
    · have ht : indexOfGroup t group = none := by
        simpa [indexOfGroup, ha] using h
      rcases List.mem_cons.mp hg with h1 | h1
      · rw [h1]; exact ha
      · exact ih ht g h1

theorem indexOfGroup_some (v : List RuleGroup) (group : String) :
    ∀ i, indexOfGroup v group = some i →
      (∃ g ∈ v, g.Name = group) ∧
      (v.take i ++ v.drop (i + 1)).Sublist v ∧
      (v.length = 1 → v.take i ++ v.drop (i + 1) = []) ∧
      ((v.map RuleGroup.Name).Nodup →
        ∀ g ∈ v.take i ++ v.drop (i + 1), g.Name ≠ group) := by
  induction v with
  | nil => intro i h; simp [indexOfGroup] at h
  | cons a t ih =>
    intro i h
    by_cases ha : a.Name = group
    · have hi : i = 0 := by
        simp [indexOfGroup, ha] at h
        exact h.symm
      subst hi
      refine ⟨⟨a, List.mem_cons_self _ _, ha⟩, by simp, ?_, ?_⟩
      · intro hl
        have : t = [] := by
          simpa using hl
        simp [this]
      · intro hnd g hg
        have hg2 : g ∈ t := by simpa using hg
        have hnd2 : a.Name ∉ t.map RuleGroup.Name := (List.nodup_cons.mp hnd).1
        intro hgn
        exact hnd2 (List.mem_map.mpr ⟨g, hg2, by rw [hgn, ha]⟩)
    · obtain ⟨j, hj, hij⟩ : ∃ j, indexOfGroup t group = some j ∧ i = j + 1 := by
        simp only [indexOfGroup, beq_iff_eq, ha, if_false, Option.map_eq_some'] at h
        obtain ⟨j, hj, hji⟩ := h
        exact ⟨j, hj, hji.symm⟩
      subst hij
      obtain ⟨⟨g, hg, hgn⟩, hsub, _, hne⟩ := ih j hj
      have hshape : (a :: t).take (j + 1) ++ (a :: t).drop (j + 1 + 1)
          = a :: (t.take j ++ t.drop (j + 1)) := by simp
      rw [hshape]
      refine ⟨⟨g, List.mem_cons_of_mem _ hg, hgn⟩, hsub.cons₂ a, ?_, ?_⟩
      · intro hl
        have ht : t = [] := by simpa using hl
        rw [ht] at hg
        cases hg
      · intro hnd g2 hg2
        have hnd2 : (t.map RuleGroup.Name).Nodup := (List.nodup_cons.mp hnd).2
        rcases List.mem_cons.mp hg2 with h1 | h1
        · rw [h1]; exact ha
        · exact hne hnd2 g2 h1

theorem lookup_deleteAt (m : fakeMimirClient) (ns : String) (v : List RuleGroup) (i : Nat)
    (q : String) :
    (deleteAt m ns v i).rules.lookup q =
      if q = ns then
        (if v.take i ++ v.drop (i + 1) = [] then none else some (v.take i ++ v.drop (i + 1)))
      else m.rules.lookup q := by
  unfold deleteAt
  simp only [fakeMimirClient.get, AList.lookup_insert, Option.getD_some, beq_iff_eq,
    List.length_eq_zero]
  by_cases hv : v.take i ++ v.drop (i + 1) = []
  · rw [if_pos hv, if_pos hv]
    by_cases hq : q = ns
    · rw [if_pos hq, hq]
      exact AList.lookup_erase ns _
    · rw [if_neg hq, AList.lookup_erase_ne hq, AList.lookup_insert_ne hq]
  · rw [if_neg hv, if_neg hv]
    by_cases hq : q = ns
    · rw [if_pos hq, hq]
      exact AList.lookup_insert _
    · rw [if_neg hq, AList.lookup_insert_ne hq]

theorem deleteLoop_cases (m : fakeMimirClient) (group : String)
    (es : List (Sigma (fun _ : String => List RuleGroup))) :
    (deleteLoop m group es = m ∧ ∀ e ∈ es, ∀ g ∈ e.2, g.Name ≠ group) ∨
    (∃ ns v i, Sigma.mk ns v ∈ es ∧ indexOfGroup v group = some i ∧
      deleteLoop m group es = deleteAt m ns v i) := by
  induction es with
  | nil => exact Or.inl ⟨rfl, fun e he => by cases he⟩
  | cons e t ih =>
    obtain ⟨ns, v⟩ := e
    cases hidx : indexOfGroup v group with
    | some i =>
      exact Or.inr ⟨ns, v, i, List.mem_cons_self _ _, hidx, by simp [deleteLoop, hidx]⟩
    | none =>
      have hstep : deleteLoop m group (⟨ns, v⟩ :: t) = deleteLoop m group t := by
        simp [deleteLoop, hidx]
      rcases ih with ⟨hsame, hall⟩ | ⟨n2, v2, i2, hmem, hi2, hres⟩
      · refine Or.inl ⟨by rw [hstep, hsame], ?_⟩
        intro e he
        rcases List.mem_cons.mp he with h1 | h1
        · rw [h1]
          exact indexOfGroup_none v group hidx
        · exact hall e h1
      · exact Or.inr ⟨n2, v2, i2, List.mem_cons_of_mem _ hmem, hi2, by rw [hstep, hres]⟩

theorem DeleteRuleGroup_cases (m : fakeMimirClient) (start : Nat) (nspace group : String) :
    (m.DeleteRuleGroup start nspace group = m ∧
      ∀ ns v, m.rules.lookup ns = some v → ∀ g ∈ v, g.Name ≠ group) ∨
    (∃ ns v i, m.rules.lookup ns = some v ∧ indexOfGroup v group = some i ∧
      m.DeleteRuleGroup start nspace group = deleteAt m ns v i) := by
  rcases deleteLoop_cases m group (m.rules.entries.rotate start) with
    ⟨hsame, hall⟩ | ⟨ns, v, i, hmem, hidx, hres⟩
  · refine Or.inl ⟨hsame, ?_⟩
    intro ns v hl g hg
    have hmem : Sigma.mk ns v ∈ m.rules.entries := AList.mem_lookup_iff.mp hl
    exact hall ⟨ns, v⟩ (List.mem_rotate.mpr hmem) g hg
  · exact Or.inr ⟨ns, v, i, AList.mem_lookup_iff.mpr (List.mem_rotate.mp hmem), hidx, hres⟩

theorem lookup_deleteAt_some (m : fakeMimirClient) (ns : String) (v : List RuleGroup)
    (i : Nat) (q : String) (w : List RuleGroup)
    (h : (deleteAt m ns v i).rules.lookup q = some w) :
    (q = ns ∧ w = v.take i ++ v.drop (i + 1)) ∨ (q ≠ ns ∧ m.rules.lookup q = some w) := by
  rw [lookup_deleteAt] at h
  by_cases hq : q = ns
  · rw [if_pos hq] at h
    by_cases hv : v.take i ++ v.drop (i + 1) = []
    · rw [if_pos hv] at h
      cases h
    · rw [if_neg hv] at h
      exact Or.inl ⟨hq, (Option.some.inj h).symm⟩
  · rw [if_neg hq] at h
    exact Or.inr ⟨hq, h⟩

theorem UniqueNames_of_sublist (m m1 : fakeMimirClient) (hm : m.UniqueNames)
    (hsub : ∀ q w, m1.rules.lookup q = some w →
      ∃ w0, m.rules.lookup q = some w0 ∧ w.Sublist w0) :
    m1.UniqueNames := by
  constructor
  · intro ns v hl
    obtain ⟨w0, hl0, hs⟩ := hsub ns v hl
    exact (hm.1 ns w0 hl0).sublist (hs.map RuleGroup.Name)
  · intro n1 v1 n2 v2 hne h1 h2 g1 hg1 g2 hg2
    obtain ⟨w1, hl1, hs1⟩ := hsub n1 v1 h1
    obtain ⟨w2, hl2, hs2⟩ := hsub n2 v2 h2
    exact hm.2 n1 w1 n2 w2 hne hl1 hl2 g1 (hs1.subset hg1) g2 (hs2.subset hg2)

theorem UniqueNames_DeleteRuleGroup (m : fakeMimirClient) (start : Nat)
    (nspace group : String) (hm : m.UniqueNames) :
    (m.DeleteRuleGroup start nspace group).UniqueNames ∧
      ∀ q w, (m.DeleteRuleGroup start nspace group).rules.lookup q = some w →
        ∀ g ∈ w, g.Name ≠ group := by
  rcases DeleteRuleGroup_cases m start nspace group with
    ⟨hsame, hall⟩ | ⟨ns, v, i, hl, hidx, hres⟩
  · rw [hsame]
    exact ⟨hm, hall⟩
  · rw [hres]
    obtain ⟨⟨g0, hg0, hg0n⟩, hsub, _, hne⟩ := indexOfGroup_some v group i hidx
    constructor
    · apply UniqueNames_of_sublist m _ hm
      intro q w hw
      rcases lookup_deleteAt_some m ns v i q w hw with ⟨hq, hwv⟩ | ⟨_, hold⟩
      · exact ⟨v, by rw [hq]; exact hl, by rw [hwv]; exact hsub⟩
      · exact ⟨w, hold, List.Sublist.refl w⟩
    · intro q w hw g hg
      rcases lookup_deleteAt_some m ns v i q w hw with ⟨_, hwv⟩ | ⟨hq, hold⟩
      · rw [hwv] at hg
        exact hne (hm.1 ns v hl) g hg
      · have := hm.2 q w ns v hq hold hl g hg g0 hg0
        rw [hg0n] at this
        exact this

theorem mem_get (m : fakeMimirClient) (ns : String) (g : RuleGroup) :
    g ∈ m.get ns ↔ ∃ v, m.rules.lookup ns = some v ∧ g ∈ v := by
  unfold fakeMimirClient.get
  cases h : m.rules.lookup ns with
  | none => simp
  | some v => simp

theorem lookup_CreateRuleGroup (m : fakeMimirClient) (start : Nat) (nspace : String)
    (rule : RuleGroup) (q : String) :
    (m.CreateRuleGroup start nspace rule).rules.lookup q =
      if q = nspace then
        some ((m.DeleteRuleGroup start nspace rule.Name).get nspace ++ [rule])
      else (m.DeleteRuleGroup start nspace rule.Name).rules.lookup q := by
  unfold fakeMimirClient.CreateRuleGroup
  by_cases hq : q = nspace
  · rw [if_pos hq, hq]
    exact AList.lookup_insert _
  · rw [if_neg hq]
    exact AList.lookup_insert_ne hq

theorem get_names_nodup (m : fakeMimirClient) (ns : String) (hm : m.UniqueNames) :
    ((m.get ns).map RuleGroup.Name).Nodup := by
  unfold fakeMimirClient.get
  cases h : m.rules.lookup ns with
  | none => simp
  | some v => simpa using hm.1 ns v h

theorem UniqueNames_CreateRuleGroup (m : fakeMimirClient) (start : Nat) (nspace : String)
    (rule : RuleGroup) (hm : m.UniqueNames) :
    (m.CreateRuleGroup start nspace rule).UniqueNames := by
  obtain ⟨hu, hno⟩ := UniqueNames_DeleteRuleGroup m start nspace rule.Name hm
  have hnoget : ∀ g ∈ (m.DeleteRuleGroup start nspace rule.Name).get nspace,
      g.Name ≠ rule.Name := by
    intro g hg
    obtain ⟨v, hv, hgv⟩ := (mem_get _ _ _).mp hg
    exact hno nspace v hv g hgv
  have hmix : ∀ q w, q ≠ nspace →
      (m.DeleteRuleGroup start nspace rule.Name).rules.lookup q = some w →
      ∀ g1 ∈ (m.DeleteRuleGroup start nspace rule.Name).get nspace ++ [rule],
      ∀ g2 ∈ w, g1.Name ≠ g2.Name := by
    intro q w hq hw g1 hg1 g2 hg2
    rcases List.mem_append.mp hg1 with h1 | h1
    · obtain ⟨v, hv, hgv⟩ := (mem_get _ _ _).mp h1
      exact hu.2 nspace v q w (fun h => hq h.symm) hv hw g1 hgv g2 hg2
    · have : g1 = rule := by simpa using h1
      rw [this]
      exact fun h => hno q w hw g2 hg2 h.symm
  constructor
  · intro ns v hl
    rw [lookup_CreateRuleGroup] at hl
    by_cases hq : ns = nspace
    · rw [if_pos hq] at hl
      rw [← Option.some.inj hl, List.map_append, List.nodup_append]
      refine ⟨get_names_nodup _ nspace hu, by simp, ?_⟩
      intro x hx1 hx2
      obtain ⟨g, hg, hgx⟩ := List.mem_map.mp hx1
      have hxr : x = rule.Name := by simpa using hx2
      exact hnoget g hg (by rw [hgx, hxr])
    · rw [if_neg hq] at hl
      exact hu.1 ns v hl
  · intro n1 v1 n2 v2 hne h1 h2 g1 hg1 g2 hg2
    rw [lookup_CreateRuleGroup] at h1 h2
    by_cases hq1 : n1 = nspace
    · have hq2 : n2 ≠ nspace := fun h => hne (by rw [hq1, h])
      rw [if_pos hq1] at h1
      rw [if_neg hq2] at h2
      rw [← Option.some.inj h1] at hg1
      exact hmix n2 v2 hq2 h2 g1 hg1 g2 hg2
    · rw [if_neg hq1] at h1
      by_cases hq2 : n2 = nspace
      · rw [if_pos hq2] at h2
        rw [← Option.some.inj h2] at hg2
        exact fun h => hmix n1 v1 hq1 h1 g2 hg2 g1 hg1 h.symm
      · rw [if_neg hq2] at h2
        exact hu.2 n1 v1 n2 v2 hne h1 h2 g1 hg1 g2 hg2

theorem Reachable_UniqueNames (m : fakeMimirClient) (h : m.Reachable) : m.UniqueNames := by
  induction h with
  | init =>
    constructor
    · intro ns v hl
      simp [newFakeMimirClient] at hl
    · intro n1 v1 n2 v2 _ hl
      simp [newFakeMimirClient] at hl
  | create m start nspace rule _ ih => exact UniqueNames_CreateRuleGroup m start nspace rule ih
  | delete m start nspace group _ ih =>
    exact (UniqueNames_DeleteRuleGroup m start nspace group ih).1

theorem DeleteRuleGroup_lookup_some (m : fakeMimirClient) (start : Nat)
    (nspace group : String) (q : String) (w : List RuleGroup)
    (h : (m.DeleteRuleGroup start nspace group).rules.lookup q = some w) :
    ∃ w0, m.rules.lookup q = some w0 ∧ w.Sublist w0 ∧ (w = w0 ∨ w ≠ []) := by
  rcases DeleteRuleGroup_cases m start nspace group with
    ⟨hsame, _⟩ | ⟨ns, v, i, hl, hidx, hres⟩
  · rw [hsame] at h
    exact ⟨w, h, List.Sublist.refl w, Or.inl rfl⟩
  · rw [hres] at h
    obtain ⟨_, hsub, _, _⟩ := indexOfGroup_some v group i hidx
    have h2 := h
    rw [lookup_deleteAt] at h2
    rcases lookup_deleteAt_some m ns v i q w h with ⟨hq, hwv⟩ | ⟨_, hold⟩
    · refine ⟨v, by rw [hq]; exact hl, by rw [hwv]; exact hsub, Or.inr ?_⟩
      intro hnil
      rw [if_pos hq, ← hwv, if_pos hnil] at h2
      cases h2
    · exact ⟨w, hold, List.Sublist.refl w, Or.inl rfl⟩

theorem lookup_foldl_ListRules (nspace q : String)
    (es : List (Sigma (fun _ : String => List RuleGroup))) :
    ∀ acc : RuleMap, es.NodupKeys →
      (es.foldl
        (fun output e =>
          if nspace != "" && nspace != e.1 then output else output.insert e.1 e.2)
        acc).lookup q =
      if (nspace != "" && nspace != q) = true then acc.lookup q
      else (List.dlookup q es <|> acc.lookup q) := by
  induction es with
  | nil =>
    intro acc _
    by_cases hs : (nspace != "" && nspace != q) = true
    · simp [hs]
    · simp [hs]
  | cons e t ih =>
    intro acc hnd
    obtain ⟨hnot, hndt⟩ := List.nodupKeys_cons.mp hnd
    rw [List.foldl_cons, ih _ hndt]
    obtain ⟨k, v⟩ := e
    by_cases hs : (nspace != "" && nspace != q) = true
    · rw [if_pos hs, if_pos hs]
      by_cases hk : (nspace != "" && nspace != k) = true
      · simp only [hk, if_true]
      · have hqk : q ≠ k := by
          intro hqk
          rw [hqk] at hs
          exact hk hs
        simp only [hk]
        exact AList.lookup_insert_ne hqk
    · rw [if_neg hs, if_neg hs]
      by_cases hqk : q = k
      · subst hqk
        have hnone : List.dlookup q t = none := List.dlookup_eq_none.mpr hnot
        simp only [hs]
        rw [hnone, List.dlookup_cons_eq]
        simp [AList.lookup_insert]
      · rw [List.dlookup_cons_ne t ⟨k, v⟩ hqk]
        by_cases hk : (nspace != "" && nspace != k) = true
        · simp only [hk, if_true]
        · simp only [hk, Bool.false_eq_true, if_false]
          rw [AList.lookup_insert_ne hqk]

theorem lookup_ListRules (m : fakeMimirClient) (nspace q : String) :
    (m.ListRules nspace).lookup q =
      if (nspace != "" && nspace != q) = true then none else m.rules.lookup q := by
  unfold fakeMimirClient.ListRules
  rw [lookup_foldl_ListRules nspace q m.rules.entries ∅ m.rules.nodupKeys]
  by_cases hs : (nspace != "" && nspace != q) = true
  · rw [if_pos hs, if_pos hs]
    exact AList.lookup_empty q
  · rw [if_neg hs, if_neg hs, AList.lookup_empty]
    simp [AList.lookup]

theorem lookup_ListRules_self (m : fakeMimirClient) (nspace : String) :
    (m.ListRules nspace).lookup nspace = m.rules.lookup nspace := by
  rw [lookup_ListRules]
  simp

theorem DeleteRuleGroup_no_group_left (m : fakeMimirClient) (start : Nat)
    (nspace : String) (n : String) (g : RuleGroup) (hm : m.UniqueNames)
    (hl : m.rules.lookup n = some [g]) :
    (m.DeleteRuleGroup start nspace g.Name).rules.lookup n = none := by
  cases hw : (m.DeleteRuleGroup start nspace g.Name).rules.lookup n with
  | none => rfl
  | some w =>
    exfalso
    obtain ⟨w0, hl0, hsub, hor⟩ := DeleteRuleGroup_lookup_some m start nspace g.Name n w hw
    have hw0 : w0 = [g] := Option.some.inj (hl0.symm.trans hl)
    have hne : w ≠ [] := by
      rcases hor with h1 | h1
      · rw [h1, hw0]
        simp
      · exact h1
    obtain ⟨x, hx⟩ := List.exists_mem_of_ne_nil w hne
    have hxg : x = g := by
      have := hsub.subset hx
      rw [hw0] at this
      simpa using this
    exact (UniqueNames_DeleteRuleGroup m start nspace g.Name hm).2 n w hw x hx (by rw [hxg])

/-- C11: on every client reached from `newFakeMimirClient` by `CreateRuleGroup` and
`DeleteRuleGroup` calls, after `CreateRuleGroup(ns, g)` the result of
`ListRules(ns)` has under `ns` a list in which `g` is the one and only group named
`g.Name`; when `ns` held a single group of that name before, it holds the single
group `g` afterwards; and after a `DeleteRuleGroup` for the name of the only group
of a namespace, that namespace is in no result of `ListRules`. -/
theorem CreateRuleGroup_replaces (m : fakeMimirClient) (h : m.Reachable) :
    (∀ (start : Nat) (ns : String) (g : RuleGroup),
      ∃ l, ((m.CreateRuleGroup start ns g).ListRules ns).lookup ns = some l ∧
        g ∈ l ∧ l.filter (fun x => x.Name == g.Name) = [g]) ∧
    (∀ (start : Nat) (ns : String) (g1 g2 : RuleGroup),
      m.rules.lookup ns = some [g1] → g1.Name = g2.Name →
      ((m.CreateRuleGroup start ns g2).ListRules ns).lookup ns = some [g2]) ∧
    (∀ (start : Nat) (nspace n : String) (g : RuleGroup) (q : String),
      m.rules.lookup n = some [g] →
      ((m.DeleteRuleGroup start nspace g.Name).ListRules q).lookup n = none) := by
  have hm : m.UniqueNames := Reachable_UniqueNames m h
  refine ⟨?_, ?_, ?_⟩
  · intro start ns g
    refine ⟨(m.DeleteRuleGroup start ns g.Name).get ns ++ [g], ?_, by simp, ?_⟩
    · rw [lookup_ListRules_self, lookup_CreateRuleGroup, if_pos rfl]
    · have hno : ∀ x ∈ (m.DeleteRuleGroup start ns g.Name).get ns, x.Name ≠ g.Name := by
        intro x hx
        obtain ⟨v, hv, hxv⟩ := (mem_get _ _ _).mp hx
        exact (UniqueNames_DeleteRuleGroup m start ns g.Name hm).2 ns v hv x hxv
      have hnil : ((m.DeleteRuleGroup start ns g.Name).get ns).filter
          (fun x => x.Name == g.Name) = [] := by
        rw [List.filter_eq_nil_iff]
        intro x hx
        simpa using hno x hx
      rw [List.filter_append, hnil]
      simp
  · intro start ns g1 g2 hl hname
    have hnone : (m.DeleteRuleGroup start ns g2.Name).rules.lookup ns = none := by
      rw [← hname]
      exact DeleteRuleGroup_no_group_left m start ns ns g1 hm hl
    rw [lookup_ListRules_self, lookup_CreateRuleGroup, if_pos rfl]
    simp [fakeMimirClient.get, hnone]
  · intro start nspace n g q hl
    rw [lookup_ListRules, DeleteRuleGroup_no_group_left m start nspace n g hm hl]
    simp

/-- Witness of C11: the client of the test after the first rule group has been
created. -/
theorem CreateRuleGroup_replaces_witness :
    (∀ (start : Nat) (ns : String) (g : RuleGroup),
      ∃ l, ((clientWithOneGroup.CreateRuleGroup start ns g).ListRules ns).lookup ns = some l ∧
        g ∈ l ∧ l.filter (fun x => x.Name == g.Name) = [g]) ∧
    (∀ (start : Nat) (ns : String) (g1 g2 : RuleGroup),
      clientWithOneGroup.rules.lookup ns = some [g1] → g1.Name = g2.Name →
      ((clientWithOneGroup.CreateRuleGroup start ns g2).ListRules ns).lookup ns = some [g2]) ∧
    (∀ (start : Nat) (nspace n : String) (g : RuleGroup) (q : String),
      clientWithOneGroup.rules.lookup n = some [g] →
      ((clientWithOneGroup.DeleteRuleGroup start nspace g.Name).ListRules q).lookup n = none) :=
  CreateRuleGroup_replaces clientWithOneGroup
    (fakeMimirClient.Reachable.create _ 0 "namespace" ⟨"group", [⟨"alert", "expr"⟩]⟩
      fakeMimirClient.Reachable.init)

/-- C12: the client that holds the group "group" under "namespace" is reachable;
`DeleteRuleGroup("other", "group")` removes that group although it is stored
under another namespace than the one given, and `CreateRuleGroup("other", g)` with
a group `g` named "group" removes it as well: the list stored under "namespace"
is not left unchanged. -/
theorem DeleteRuleGroup_ignores_namespace :
    clientWithOneGroup.Reachable ∧
      clientWithOneGroup.rules.lookup "namespace"
        = some [⟨"group", [⟨"alert", "expr"⟩]⟩] ∧
      (clientWithOneGroup.DeleteRuleGroup 0 "other" "group").rules.lookup "namespace" = none ∧
      (clientWithOneGroup.CreateRuleGroup 0 "other" ⟨"group", []⟩).rules.lookup "namespace"
        = none ∧
      (clientWithOneGroup.CreateRuleGroup 0 "other" ⟨"group", []⟩).rules.lookup "other"
        = some [⟨"group", []⟩] :=
  ⟨fakeMimirClient.Reachable.create _ 0 "namespace" ⟨"group", [⟨"alert", "expr"⟩]⟩
      fakeMimirClient.Reachable.init,
    by decide, by decide, by decide, by decide⟩

end rules
